import Mathlib

/-!
Shallow embedding of the text-to-SQL harness (prompting_utils.py, prompting.py,
load_data.py) together with proofs about its string-processing pipeline.

Strings are modelled as `List Char` (ASCII-faithful). All recursions are
structural so every definition reduces in the kernel and concrete inputs can be
settled by `decide`.
-/

namespace HW3

/-- Convert a string literal to the `List Char` representation used throughout. -/
def s2l (s : String) : List Char := s.data

/-- Python whitespace class `\s` (ASCII part), also used by `str.strip()`. -/
def pyWS (c : Char) : Bool :=
  c == ' ' || c == '\t' || c == '\n' || c == '\r' || c == '\x0b' || c == '\x0c'

/-- ASCII model of Python `str.upper()`, applied characterwise. -/
def upChar (c : Char) : Char :=
  if 97 ≤ c.toNat ∧ c.toNat ≤ 122 then Char.ofNat (c.toNat - 32) else c

/-- `leadsWith pat s` holds when `pat` is an initial run of `s`
(the substring-occurrence-at-position-0 test). -/
def leadsWith : List Char → List Char → Bool
  | [], _ => true
  | _ :: _, [] => false
  | a :: as, b :: bs => a == b && leadsWith as bs

/-- Index of the first occurrence of `pat` in `s`, scanning left to right. -/
def findOcc (pat : List Char) : List Char → Option Nat
  | [] => if leadsWith pat [] then some 0 else none
  | c :: rest =>
    if leadsWith pat (c :: rest) then some 0
    else (findOcc pat rest).map (· + 1)

/-- Whether `pat` occurs anywhere in `s`. -/
def hasOcc (pat s : List Char) : Bool := (findOcc pat s).isSome

/-- `response.replace("<bos>", "")`: delete every occurrence of `<bos>`,
scanning left to right without rescanning, as Python `str.replace` does. -/
def removeBosTok : List Char → List Char
  | '<' :: 'b' :: 'o' :: 's' :: '>' :: rest => removeBosTok rest
  | c :: rest => c :: removeBosTok rest
  | [] => []

/-- `response.replace("<eos>", "")`. -/
def removeEosTok : List Char → List Char
  | '<' :: 'e' :: 'o' :: 's' :: '>' :: rest => removeEosTok rest
  | c :: rest => c :: removeEosTok rest
  | [] => []

/-- `response.replace("<s>", "")`. -/
def removeOpenSTok : List Char → List Char
  | '<' :: 's' :: '>' :: rest => removeOpenSTok rest
  | c :: rest => c :: removeOpenSTok rest
  | [] => []

/-- `response.replace("</s>", "")`. -/
def removeCloseSTok : List Char → List Char
  | '<' :: '/' :: 's' :: '>' :: rest => removeCloseSTok rest
  | c :: rest => c :: removeCloseSTok rest
  | [] => []

/-- The six sequential `.replace(..., "")` calls at the top of
`extract_sql_query`, in source order: `<bos>`, `<eos>`, `<s>`, `</s>`,
`<bos>`, `<eos>`. -/
def stripTokens (r : List Char) : List Char :=
  removeEosTok (removeBosTok (removeCloseSTok (removeOpenSTok
    (removeEosTok (removeBosTok r)))))

/-- The label searched for: `"SQL:"` (the search happens on the uppercased
response, so the pattern is the literal uppercase string). -/
def sqlLabel : List Char := s2l "SQL:"

/-- Left-to-right non-overlapping scan for `SQL:`; returns the text after the
last occurrence when one exists (the `response.upper().split("SQL:")[-1]`
computation of the source). -/
def lastTailAux : List Char → Option (List Char)
  | 'S' :: 'Q' :: 'L' :: ':' :: rest =>
    some (match lastTailAux rest with
          | some t => t
          | none => rest)
  | _ :: rest => lastTailAux rest
  | [] => none

/-- Text after the last `SQL:` occurrence (whole text when there is none). -/
def afterLastLabel (s : List Char) : List Char :=
  match lastTailAux s with
  | some t => t
  | none => s

/-- Lines 24-26 of prompting_utils.py: when `"SQL:"` occurs in
`response.upper()`, the response becomes the (uppercased) text after the last
occurrence; otherwise it is unchanged. -/
def postLabel (s : List Char) : List Char :=
  if hasOcc sqlLabel (List.map upChar s) then afterLastLabel (List.map upChar s)
  else s

/-- The keyword compared case-insensitively by the regex `SELECT`. -/
def selectKw : List Char := s2l "SELECT"

/-- Attempt of `re.search(r'(SELECT\s+.*?;)', ..., DOTALL|IGNORECASE)` at the
start of `t`: case-insensitive `SELECT`, then at least one whitespace char,
then the shortest extension reaching a `;`. -/
def tryMatch (t : List Char) : Option (List Char) :=
  if List.map upChar (List.take 6 t) == selectKw then
    match t.drop 6 with
    | [] => none
    | c :: u =>
      if pyWS c then
        match findOcc [';'] u with
        | some j => some (List.take (8 + j) t)
        | none => none
      else none
  else none

/-- Leftmost regex match: try each start position left to right. -/
def findSelect : List Char → Option (List Char)
  | [] => none
  | c :: rest =>
    match tryMatch (c :: rest) with
    | some m => some m
    | none => findSelect rest

/-- Line 30: the candidate is the regex match if any, else the whole text. -/
def candidateOf (s : List Char) : List Char :=
  match findSelect s with
  | some m => m
  | none => s

/-- `re.sub(r'```(sql)?', '', query, flags=re.IGNORECASE)`: remove each
triple-backtick, together with a directly following case-insensitive `sql`. -/
def removeFences : List Char → List Char
  | '`' :: '`' :: '`' :: a :: b :: c :: rest' =>
    if upChar a == 'S' && upChar b == 'Q' && upChar c == 'L' then
      removeFences rest'
    else removeFences (a :: b :: c :: rest')
  | '`' :: '`' :: '`' :: rest => removeFences rest
  | c :: rest => c :: removeFences rest
  | [] => []

/-- `query.replace("\n", " ")` as a characterwise map. -/
def nlToSpace (c : Char) : Char := if c == '\n' then ' ' else c

/-- State-passing scan implementing `re.sub(r'\s+', ' ', query)`: each maximal
whitespace run becomes a single space. The flag records whether the previous
character was whitespace. -/
def collapseGo : Bool → List Char → List Char
  | _, [] => []
  | inWS, c :: rest =>
    if pyWS c then
      if inWS then collapseGo true rest else ' ' :: collapseGo true rest
    else c :: collapseGo false rest

/-- `re.sub(r'\s+', ' ', query)`. -/
def collapseWS (s : List Char) : List Char := collapseGo false s

/-- Python `str.strip()`: drop whitespace from both ends. -/
def stripWS (s : List Char) : List Char :=
  ((s.dropWhile pyWS).reverse.dropWhile pyWS).reverse

/-- Whether a string ends with a semicolon (`query.endswith(';')`). -/
def endsSemi (q : List Char) : Bool :=
  match q.reverse with
  | [] => false
  | c :: _ => c == ';'

/-- Whether a string ends with exactly one semicolon (a `;` not preceded by
another `;`). -/
def endsOneSemi (q : List Char) : Bool :=
  match q.reverse with
  | [] => false
  | c :: rest =>
    c == ';' && (match rest with
                 | [] => true
                 | d :: _ => !(d == ';'))

/-- The cleaned query of `extract_sql_query` just before the final
semicolon-appending step (lines 19-34 of prompting_utils.py). -/
def preSemicolon (r : List Char) : List Char :=
  stripWS (collapseWS (List.map nlToSpace
    (removeFences (candidateOf (postLabel (stripTokens r))))))

/-- prompting_utils.extract_sql_query, lines 19-38: the cleaned query, with a
semicolon appended when the result is non-empty and lacks one. -/
def extract_sql_query (r : List Char) : List Char :=
  if preSemicolon r ≠ [] ∧ endsSemi (preSemicolon r) = false
  then preSemicolon r ++ [';'] else preSemicolon r

/-! ## prompting.py -/

/-- Instruction text for `ptype == 0`. -/
def instruct0 : List Char := s2l "Convert English questions to SQL queries.\n\n"

/-- Instruction text for `ptype == 1`. -/
def instruct1 : List Char :=
  s2l "Convert English questions to SQL queries for a flight database. Use proper SQL syntax with correct table joins and aliases. Output only the SQL query.\n\n"

/-- Instruction text for every other `ptype`, before the optional schema line. -/
def instruct2base : List Char :=
  s2l "Convert English questions to SQL queries for a flight database. Use proper SQL syntax with SELECT, FROM, WHERE, and JOIN clauses. Always use table aliases like flight_1, city_1, airport_service_1, etc. Join tables correctly through their foreign key relationships. End all queries with a semicolon.\n\n"

/-- The `if schema:` block of the `else` branch: a truthy (present and
non-empty) schema contributes `Schema: {schema[:300]}\n\n`. -/
def schemaPart (schema : Option (List Char)) : List Char :=
  match schema with
  | none => []
  | some s => if s ≠ [] then s2l "Schema: " ++ s.take 300 ++ s2l "\n\n" else []

/-- Instruction text selected by the `ptype` chain of `create_prompt`
(lines 32-42 of prompting.py). -/
def instructOf (ptype : Int) (schema : Option (List Char)) : List Char :=
  if ptype = 0 then instruct0
  else if ptype = 1 then instruct1
  else instruct2base ++ schemaPart schema

/-- Lines 48-50: strip the example SQL and append `;` only when missing. -/
def addSemi (s : List Char) : List Char := if endsSemi s then s else s ++ [';']

/-- One in-context example block `f"{train_x[idx]}\n{sql}\n\n"` (line 51). -/
def exampleBlock (x y : List Char) : List Char :=
  x ++ '\n' :: (addSemi (stripWS y) ++ ['\n', '\n'])

/-- prompting.create_prompt (lines 31-55); `schema = None` is `none`, an
absent example list is `[]` (Python falsy), `ptype` is an `Int` as in argparse.
The example loop is a left fold mirroring the `instruct +=` accumulation. -/
def create_prompt (sentence : List Char) (k : Nat)
    (train_x train_y : List (List Char)) (schema : Option (List Char))
    (ptype : Int) : List Char :=
  (if 0 < k ∧ train_x ≠ [] ∧ train_y ≠ [] then
    (List.range (min k train_x.length)).foldl
      (fun acc idx =>
        acc ++ exampleBlock (train_x.getD idx []) (train_y.getD idx []))
      (instructOf ptype schema)
   else instructOf ptype schema) ++ sentence

/-- The example section alone (what the loop appends after the instruction). -/
def exampleSection (k : Nat) (train_x train_y : List (List Char)) : List Char :=
  if 0 < k ∧ train_x ≠ [] ∧ train_y ≠ [] then
    ((List.range (min k train_x.length)).map
      (fun idx => exampleBlock (train_x.getD idx []) (train_y.getD idx []))).flatten
  else []

/-- Lines 98-99 of prompting.py: the decoded output keeps only the text after
the first `len(prompt)` characters (then stripped) whenever it is longer than
the prompt; otherwise it is returned unchanged. -/
def stripResponse (prompt response : List Char) : List Char :=
  if prompt.length < response.length then stripWS (response.drop prompt.length)
  else response

/-- Python integer division as a fallible operation (`ZeroDivisionError`). -/
def pyDiv (a b : ℚ) : Option ℚ := if b = 0 then none else some (a / b)

/-- The error-rate computation of eval_outputs (line 134 of prompting.py):
`sum(1 for msg in error_msgs if msg != "") / len(error_msgs)` guarded by
`if len(error_msgs) > 0 else 0`. -/
def eval_outputs_error_rate (error_msgs : List (List Char)) : Option ℚ :=
  if 0 < error_msgs.length then
    pyDiv ((error_msgs.filter (fun m => !m.isEmpty)).length : ℚ)
      (error_msgs.length : ℚ)
  else some 0

/-! ## load_data.py -/

/-- The tokenizer and model ids used by T5Dataset, abstracted as opaque
functions: `encodeEnc`/`encMask` are the truncated encoder tokenization and its
attention mask, `encodeDec` the target tokenization, `bosId` the id of
`<extra_id_0>`, `eosId` the tokenizer's `eos_token_id`. -/
structure TokModel where
  encodeEnc : List Char → List Nat
  encMask : List Char → List Nat
  encodeDec : List Char → List Nat
  bosId : Nat
  eosId : Nat

/-- The fixed encoder wrapper of process_data. -/
def encPrompt (nl : List Char) : List Char :=
  s2l "Convert the following English to SQL query: " ++ nl

/-- One processed non-test example (the dict built on lines 67-73). -/
structure TrainEx where
  encoder_input_ids : List Nat
  encoder_attention_mask : List Nat
  decoder_input_ids : List Nat
  decoder_target_ids : List Nat
  decoder_start_token : Nat

/-- T5Dataset.process_data, non-test branch (lines 58-73): zip the question
and SQL line lists and build the teacher-forcing sequences. -/
def process_data_nontest (tk : TokModel) (data_in data_out : List (List Char)) :
    List TrainEx :=
  (data_in.zip data_out).map (fun p =>
    { encoder_input_ids := tk.encodeEnc (encPrompt p.1)
      encoder_attention_mask := tk.encMask (encPrompt p.1)
      decoder_input_ids := tk.bosId :: tk.encodeDec p.2
      decoder_target_ids := tk.encodeDec p.2 ++ [tk.eosId]
      decoder_start_token := tk.bosId })

/-- load_data.PAD_IDX. -/
def PAD_IDX : Nat := 0

/-- Length of the longest sequence in a batch field. -/
def maxLen (xs : List (List Nat)) : Nat :=
  xs.foldr (fun s m => max s.length m) 0

/-- torch.nn.utils.rnn.pad_sequence with `batch_first=True`: right-pad every
sequence with `padding_value` to the longest length in the batch. -/
def pad_sequence (seqs : List (List Nat)) (padding_value : Nat) :
    List (List Nat) :=
  seqs.map (fun s => s ++ List.replicate (maxLen seqs - s.length) padding_value)

/-- load_data.normal_collate_fn (lines 83-113): pad the four id/mask fields
independently and gather the per-example start tokens. -/
def normal_collate_fn (batch : List TrainEx) :
    List (List Nat) × List (List Nat) × List (List Nat) × List (List Nat) ×
      List Nat :=
  (pad_sequence (batch.map (·.encoder_input_ids)) PAD_IDX,
   pad_sequence (batch.map (·.encoder_attention_mask)) 0,
   pad_sequence (batch.map (·.decoder_input_ids)) PAD_IDX,
   pad_sequence (batch.map (·.decoder_target_ids)) PAD_IDX,
   batch.map (·.decoder_start_token))

/-- A well-formed occurrence of the regex `SELECT\s+.*?;` starting at
position `p` of `s`: six characters spelling `SELECT` case-insensitively, a
whitespace character, and some later semicolon. -/
def selStartsAt (s : List Char) (p : Nat) : Bool :=
  (List.map upChar (List.take 6 (List.drop p s)) == selectKw)
  && (match (List.drop p s).get? 6 with
      | some c => pyWS c
      | none => false)
  && ((List.drop (p + 7) s).any (fun c => c == ';'))

/-! ## Supporting lemmas -/

theorem leadsWith_append_self (p s : List Char) : leadsWith p (p ++ s) = true := by
  induction p with
  | nil => rfl
  | cons a as ih => simp [leadsWith, ih]

theorem findOcc_isSome_of_leads {p s : List Char} {k : Nat}
    (h : leadsWith p (s.drop k) = true) : (findOcc p s).isSome = true := by
  induction s generalizing k with
  | nil =>
    simp only [List.drop_nil] at h
    simp [findOcc, h]
  | cons c rest ih =>
    match k with
    | 0 =>
      simp only [List.drop_zero] at h
      simp [findOcc, h]
    | k + 1 =>
      simp only [List.drop_succ_cons] at h
      by_cases h0 : leadsWith p (c :: rest) = true
      · simp [findOcc, h0]
      · have hS := ih h
        rcases hF : findOcc p rest with _ | v
        · rw [hF] at hS; simp at hS
        · simp [findOcc, if_neg h0, hF]

/-- `(Char.ofNat n).toNat = n` for codepoints below the surrogate range. -/
theorem char_toNat_ofNat {n : Nat} (h : n < 55296) : (Char.ofNat n).toNat = n := by
  rw [Char.ofNat, dif_pos (Or.inl h)]
  simp [Char.ofNatAux, Char.toNat, UInt32.toNat, BitVec.toNat_ofNatLt]

/-- Uppercasing maps only `;` to `;`. -/
theorem upChar_eq_semi {c : Char} (h : upChar c = ';') : c = ';' := by
  unfold upChar at h
  split at h
  · rename_i hr
    have h59 : (';' : Char).toNat = 59 := rfl
    have := congrArg Char.toNat h
    rw [char_toNat_ofNat (by omega), h59] at this
    omega
  · exact h

theorem mem_removeBosTok {x : Char} {s : List Char} (h : x ∈ removeBosTok s) :
    x ∈ s := by
  induction s using removeBosTok.induct with
  | case1 rest ih =>
    simp only [removeBosTok] at h
    simp [List.mem_cons, ih h]
  | case2 c rest hne ih =>
    simp only [removeBosTok] at h
    rcases List.mem_cons.mp h with h | h
    · simp [h]
    · simp [List.mem_cons, ih h]
  | case3 => simp [removeBosTok] at h

theorem mem_removeEosTok {x : Char} {s : List Char} (h : x ∈ removeEosTok s) :
    x ∈ s := by
  induction s using removeEosTok.induct with
  | case1 rest ih =>
    simp only [removeEosTok] at h
    simp [List.mem_cons, ih h]
  | case2 c rest hne ih =>
    simp only [removeEosTok] at h
    rcases List.mem_cons.mp h with h | h
    · simp [h]
    · simp [List.mem_cons, ih h]
  | case3 => simp [removeEosTok] at h

theorem mem_removeOpenSTok {x : Char} {s : List Char}
    (h : x ∈ removeOpenSTok s) : x ∈ s := by
  induction s using removeOpenSTok.induct with
  | case1 rest ih =>
    simp only [removeOpenSTok] at h
    simp [List.mem_cons, ih h]
  | case2 c rest hne ih =>
    simp only [removeOpenSTok] at h
    rcases List.mem_cons.mp h with h | h
    · simp [h]
    · simp [List.mem_cons, ih h]
  | case3 => simp [removeOpenSTok] at h

theorem mem_removeCloseSTok {x : Char} {s : List Char}
    (h : x ∈ removeCloseSTok s) : x ∈ s := by
  induction s using removeCloseSTok.induct with
  | case1 rest ih =>
    simp only [removeCloseSTok] at h
    simp [List.mem_cons, ih h]
  | case2 c rest hne ih =>
    simp only [removeCloseSTok] at h
    rcases List.mem_cons.mp h with h | h
    · simp [h]
    · simp [List.mem_cons, ih h]
  | case3 => simp [removeCloseSTok] at h

theorem mem_stripTokens {x : Char} {r : List Char} (h : x ∈ stripTokens r) :
    x ∈ r := by
  unfold stripTokens at h
  exact mem_removeBosTok (mem_removeEosTok (mem_removeOpenSTok
    (mem_removeCloseSTok (mem_removeBosTok (mem_removeEosTok h)))))

theorem mem_removeFences {x : Char} {s : List Char} (h : x ∈ removeFences s) :
    x ∈ s := by
  induction s using removeFences.induct with
  | case1 a b c rest' hsql ih =>
    simp only [removeFences, if_pos hsql] at h
    simp [List.mem_cons, ih h]
  | case2 a b c rest' hsql ih =>
    simp only [removeFences, if_neg hsql] at h
    have := ih h
    simp only [List.mem_cons] at this ⊢
    tauto
  | case3 rest h1 ih =>
    simp only [removeFences] at h
    simp [List.mem_cons, ih h]
  | case4 c rest h1 h2 ih =>
    simp only [removeFences] at h
    rcases List.mem_cons.mp h with h | h
    · simp [h]
    · simp [List.mem_cons, ih h]
  | case5 => simp [removeFences] at h

theorem lastTailAux_suffix {s : List Char} :
    ∀ {t}, lastTailAux s = some t → ∃ k, t = s.drop k := by
  induction s using lastTailAux.induct with
  | case1 rest ih =>
    intro t h
    simp only [lastTailAux] at h
    rcases h' : lastTailAux rest with _ | t'
    · rw [h'] at h
      simp only [Option.some.injEq] at h
      exact ⟨4, by simp [← h]⟩
    · rw [h'] at h
      simp only [Option.some.injEq] at h
      obtain ⟨k, hk⟩ := ih h'
      refine ⟨k + 4, ?_⟩
      rw [← h, hk]
      simp [List.drop_drop]
  | case2 c rest hne ih =>
    intro t h
    simp only [lastTailAux] at h
    obtain ⟨k, hk⟩ := ih h
    exact ⟨k + 1, by simp [hk]⟩
  | case3 =>
    intro t h
    simp [lastTailAux] at h

theorem mem_afterLastLabel {x : Char} {s : List Char}
    (h : x ∈ afterLastLabel s) : x ∈ s := by
  unfold afterLastLabel at h
  rcases h' : lastTailAux s with _ | t
  · rw [h'] at h; exact h
  · rw [h'] at h
    obtain ⟨k, hk⟩ := lastTailAux_suffix h'
    exact List.mem_of_mem_drop (hk ▸ h)

theorem mem_postLabel {x : Char} {s : List Char} (h : x ∈ postLabel s)
    (hx : x = ';') : ';' ∈ s := by
  unfold postLabel at h
  split at h
  · have := mem_afterLastLabel h
    obtain ⟨c, hc, hcu⟩ := List.mem_map.mp this
    rw [hx] at hcu
    rw [upChar_eq_semi hcu] at hc
    exact hc
  · exact hx ▸ h

theorem findSelect_shape {s m : List Char} (h : findSelect s = some m) :
    ∃ i n, m = List.take n (List.drop i s) := by
  induction s with
  | nil => simp [findSelect] at h
  | cons c rest ih =>
    simp only [findSelect] at h
    rcases h' : tryMatch (c :: rest) with _ | m'
    · rw [h'] at h
      obtain ⟨i, n, hm⟩ := ih h
      exact ⟨i + 1, n, by simpa using hm⟩
    · rw [h'] at h
      simp only [Option.some.injEq] at h
      subst h
      unfold tryMatch at h'
      split at h'
      · split at h'
        · exact absurd h' (by simp)
        · split at h'
          · split at h'
            · simp only [Option.some.injEq] at h'
              exact ⟨0, _, by rw [← h', List.drop_zero]⟩
            · exact absurd h' (by simp)
          · exact absurd h' (by simp)
      · exact absurd h' (by simp)

theorem mem_candidateOf {x : Char} {s : List Char} (h : x ∈ candidateOf s) :
    x ∈ s := by
  unfold candidateOf at h
  rcases h' : findSelect s with _ | m
  · rw [h'] at h; exact h
  · rw [h'] at h
    obtain ⟨i, n, hm⟩ := findSelect_shape h'
    exact List.mem_of_mem_drop (List.mem_of_mem_take (hm ▸ h))

theorem mem_collapseGo {x : Char} {b : Bool} {s : List Char}
    (h : x ∈ collapseGo b s) : x = ' ' ∨ x ∈ s := by
  induction s generalizing b with
  | nil => simp [collapseGo] at h
  | cons c rest ih =>
    unfold collapseGo at h
    split at h
    · split at h
      · rcases ih h with h | h
        · exact Or.inl h
        · exact Or.inr (List.mem_cons_of_mem _ h)
      · rcases List.mem_cons.mp h with h | h
        · exact Or.inl h
        · rcases ih h with h | h
          · exact Or.inl h
          · exact Or.inr (List.mem_cons_of_mem _ h)
    · rcases List.mem_cons.mp h with h | h
      · exact Or.inr (h ▸ List.mem_cons_self _ _)
      · rcases ih h with h | h
        · exact Or.inl h
        · exact Or.inr (List.mem_cons_of_mem _ h)

theorem mem_dropWhile {x : α} {p : α → Bool} {l : List α}
    (h : x ∈ l.dropWhile p) : x ∈ l := by
  induction l with
  | nil => simp at h
  | cons a t ih =>
    by_cases ha : p a = true
    · rw [List.dropWhile_cons_of_pos ha] at h
      exact List.mem_cons_of_mem _ (ih h)
    · rw [List.dropWhile_cons_of_neg (by simpa using ha)] at h
      exact h

theorem mem_stripWS {x : Char} {s : List Char} (h : x ∈ stripWS s) : x ∈ s := by
  unfold stripWS at h
  rw [List.mem_reverse] at h
  have := mem_dropWhile h
  rw [List.mem_reverse] at this
  exact mem_dropWhile this

theorem getLast?_cons_of_ne_nil {a : α} {l : List α} (h : l ≠ []) :
    (a :: l).getLast? = l.getLast? := by
  cases l with
  | nil => exact absurd rfl h
  | cons b t => exact List.getLast?_cons_cons

theorem ne_nil_of_getLast?_eq_some {l : List α} {x : α}
    (h : l.getLast? = some x) : l ≠ [] := by
  intro hl
  rw [hl] at h
  simp at h

theorem getLast?_dropWhile {p : α → Bool} {l : List α} {x : α}
    (h : l.getLast? = some x) (hx : p x = false) :
    (l.dropWhile p).getLast? = some x := by
  induction l with
  | nil => simp at h
  | cons a t ih =>
    cases t with
    | nil =>
      have hax : a = x := by simpa using h
      subst hax
      rw [List.dropWhile_cons_of_neg (by simp [hx])]
      simp
    | cons b t' =>
      rw [List.getLast?_cons_cons] at h
      by_cases hp : p a = true
      · rw [List.dropWhile_cons_of_pos hp]
        exact ih h
      · rw [List.dropWhile_cons_of_neg (by simpa using hp)]
        rw [getLast?_cons_of_ne_nil (by simp)]
        exact h

theorem getLast?_collapseGo {s : List Char} {x : Char}
    (h : s.getLast? = some x) (hx : pyWS x = false) :
    ∀ b, (collapseGo b s).getLast? = some x := by
  induction s with
  | nil => simp at h
  | cons c t ih =>
    intro b
    cases t with
    | nil =>
      have hax : c = x := by simpa using h
      subst hax
      unfold collapseGo
      rw [if_neg (by simp [hx])]
      simp [collapseGo]
    | cons d t' =>
      rw [List.getLast?_cons_cons] at h
      unfold collapseGo
      by_cases hc : pyWS c = true
      · rw [if_pos hc]
        cases b with
        | true =>
          simp only [if_pos rfl]
          exact ih h true
        | false =>
          simp only [Bool.false_eq_true, if_false]
          rw [getLast?_cons_of_ne_nil (ne_nil_of_getLast?_eq_some (ih h true))]
          exact ih h true
      · rw [if_neg hc]
        rw [getLast?_cons_of_ne_nil (ne_nil_of_getLast?_eq_some (ih h false))]
        exact ih h false

theorem getLast?_stripWS {s : List Char} {x : Char}
    (h : s.getLast? = some x) (hx : pyWS x = false) :
    (stripWS s).getLast? = some x := by
  unfold stripWS
  have h1 : (s.dropWhile pyWS).getLast? = some x := getLast?_dropWhile h hx
  have h2 : (s.dropWhile pyWS).reverse.head? = some x := by
    rw [List.head?_reverse]; exact h1
  rcases hw : (s.dropWhile pyWS).reverse with _ | ⟨y, w⟩
  · rw [hw] at h2; simp at h2
  · rw [hw] at h2
    have hy : y = x := by simpa using h2
    rw [List.dropWhile_cons_of_neg (by simp [hy, hx])]
    rw [List.getLast?_reverse]
    simp [hy]

/-- The whole normalization tail of extract_sql_query keeps a final `;`. -/
theorem getLast?_clean {q : List Char} (h : q.getLast? = some ';') :
    (stripWS (collapseWS (List.map nlToSpace q))).getLast? = some ';' := by
  have h1 : (List.map nlToSpace q).getLast? = some ';' := by
    rw [List.getLast?_map, h]
    rfl
  exact getLast?_stripWS (getLast?_collapseGo h1 (by decide) false) (by decide)

theorem endsSemi_of_getLast? {q : List Char} (h : q.getLast? = some ';') :
    endsSemi q = true := by
  unfold endsSemi
  rw [← List.head?_reverse] at h
  rcases hr : q.reverse with _ | ⟨c, w⟩
  · rw [hr] at h; simp at h
  · rw [hr] at h
    have : c = ';' := by simpa using h
    simp [this]

/-- Any non-empty extraction result ends with a semicolon. -/
theorem extract_sql_query_endsSemi (r : List Char)
    (h : extract_sql_query r ≠ []) :
    endsSemi (extract_sql_query r) = true := by
  unfold extract_sql_query at h ⊢
  by_cases hc : preSemicolon r ≠ [] ∧ endsSemi (preSemicolon r) = false
  · rw [if_pos hc] at h ⊢
    unfold endsSemi
    rw [List.reverse_append]
    simp
  · rw [if_neg hc] at h ⊢
    rcases Decidable.not_and_iff_or_not.mp hc with hc | hc
    · exact absurd h (by simpa using hc)
    · simpa using hc

theorem any_semi_eq_isSome (u : List Char) :
    (u.any (fun c => c == ';')) = (findOcc [';'] u).isSome := by
  induction u with
  | nil => rfl
  | cons c u' ih =>
    by_cases hc : c = ';'
    · subst hc
      simp [findOcc, leadsWith]
    · have hl : leadsWith [';'] (c :: u') = false := by
        simp [leadsWith]
        exact fun h => absurd h.symm hc
      have hany : (c == ';') = false := by simp [hc]
      have hstep : findOcc [';'] (c :: u') = (findOcc [';'] u').map (· + 1) := by
        simp [findOcc, hl]
      rw [List.any_cons, hany, Bool.false_or, ih, hstep]
      rcases findOcc [';'] u' with _ | v <;> rfl

/-- A failed well-formedness test means the regex cannot match at `p`. -/
theorem tryMatch_eq_none {s : List Char} {p : Nat}
    (h : selStartsAt s p = false) : tryMatch (s.drop p) = none := by
  unfold tryMatch
  unfold selStartsAt at h
  by_cases h6 : (List.map upChar (List.take 6 (List.drop p s)) == selectKw) = true
  · rw [if_pos h6]
    split
    · rfl
    · rename_i c u h7
      have hc6 : (s.drop p).get? 6 = some c := by
        rw [List.get?_eq_getElem?, ← List.head?_drop, h7]
        rfl
      have hu : u = List.drop (p + 7) s := by
        have h8 : ((s.drop p).drop 6).tail = (s.drop p).drop 7 :=
          List.tail_drop _ _
        rw [h7] at h8
        simp only [List.tail_cons, List.drop_drop] at h8
        simpa using h8
      rw [h6, hc6] at h
      simp only [Bool.true_and] at h
      by_cases hws : pyWS c = true
      · rw [if_pos hws]
        rw [hws] at h
        simp only [Bool.true_and] at h
        rw [← hu, any_semi_eq_isSome] at h
        rcases hF : findOcc [';'] u with _ | j
        · simp [hF]
        · rw [hF] at h; simp at h
      · rw [if_neg hws]
  · rw [if_neg h6]

/-- A successful well-formedness test at `p`, with `j` the offset of the first
semicolon after the whitespace position, gives the regex match at `p`. -/
theorem tryMatch_eq_some {s : List Char} {p j : Nat}
    (h : selStartsAt s p = true)
    (hj : findOcc [';'] (List.drop (p + 7) s) = some j) :
    tryMatch (s.drop p) = some (List.take (8 + j) (s.drop p)) := by
  unfold tryMatch
  unfold selStartsAt at h
  have h6 : (List.map upChar (List.take 6 (List.drop p s)) == selectKw) = true := by
    rcases Bool.and_eq_true_iff.mp h with ⟨h', _⟩
    exact (Bool.and_eq_true_iff.mp h').1
  rw [if_pos h6]
  split
  · rename_i h7
    exfalso
    have hn : (s.drop p).get? 6 = none := by
      rw [List.get?_eq_getElem?, ← List.head?_drop, h7]
      rfl
    rw [hn] at h
    simp at h
  · rename_i c u h7
    have hc6 : (s.drop p).get? 6 = some c := by
      rw [List.get?_eq_getElem?, ← List.head?_drop, h7]
      rfl
    have hu : u = List.drop (p + 7) s := by
      have h8 : ((s.drop p).drop 6).tail = (s.drop p).drop 7 :=
        List.tail_drop _ _
      rw [h7] at h8
      simp only [List.tail_cons, List.drop_drop] at h8
      simpa using h8
    have hws : pyWS c = true := by
      rw [hc6] at h
      rcases Bool.and_eq_true_iff.mp h with ⟨h', _⟩
      exact (Bool.and_eq_true_iff.mp h').2
    rw [if_pos hws]
    simp only [hu, hj]

theorem findSelect_eq_some {s : List Char} {m : List Char} :
    ∀ {i : Nat}, (∀ q, q < i → tryMatch (s.drop q) = none) →
      tryMatch (s.drop i) = some m → findSelect s = some m := by
  induction s with
  | nil =>
    intro i _ hm
    rw [List.drop_nil] at hm
    exact absurd hm (by simp [tryMatch, selectKw, s2l])
  | cons c rest ih =>
    intro i hlt hm
    match i with
    | 0 =>
      rw [List.drop_zero] at hm
      simp [findSelect, hm]
    | i + 1 =>
      have h0 : tryMatch (c :: rest) = none := by
        have := hlt 0 (Nat.succ_pos i)
        simpa using this
      simp only [findSelect, h0]
      refine ih (fun q hq => ?_) (by simpa using hm)
      have := hlt (q + 1) (Nat.succ_lt_succ hq)
      simpa using this

theorem findSelect_eq_none {s : List Char}
    (h : ∀ q, tryMatch (s.drop q) = none) : findSelect s = none := by
  induction s with
  | nil => rfl
  | cons c rest ih =>
    have h0 : tryMatch (c :: rest) = none := by simpa using h 0
    simp only [findSelect, h0]
    exact ih (fun q => by simpa using h (q + 1))

/-- Positions past the end never match. -/
theorem tryMatch_nil : tryMatch ([] : List Char) = none := by
  simp [tryMatch, selectKw, s2l]

theorem sqlLabel_eq : sqlLabel = 'S' :: 'Q' :: 'L' :: ':' :: [] := rfl

theorem lastTailAux_cons_ne {c : Char} {rest : List Char}
    (h : List.take 4 (c :: rest) ≠ sqlLabel) :
    lastTailAux (c :: rest) = lastTailAux rest := by
  rw [lastTailAux.eq_def]
  split
  · rename_i heq
    exfalso
    apply h
    rw [heq]
    rfl
  · rename_i c' rest' hne heq
    cases heq
    rfl
  · rename_i heq
    exact absurd heq (by simp)

/-- The non-overlapping scan for `SQL:` in `y ++ "SQL:" ++ s` always finds an
occurrence, and the final tail is determined by `s` alone. -/
theorem lastTailAux_append :
    ∀ (n : Nat) (y s : List Char), y.length ≤ n →
      lastTailAux (y ++ sqlLabel ++ s) = some (afterLastLabel s) := by
  intro n
  induction n with
  | zero =>
    intro y s hy
    have hnil : y = [] := List.eq_nil_of_length_eq_zero (Nat.le_zero.mp hy)
    subst hnil
    rfl
  | succ n ih =>
    intro y s hy
    match y with
    | [] => rfl
    | c :: y' =>
      have hsplit : (c :: y') ++ sqlLabel ++ s = c :: (y' ++ sqlLabel ++ s) := by
        simp
      rw [hsplit]
      by_cases h4 : List.take 4 (c :: (y' ++ sqlLabel ++ s)) = sqlLabel
      · -- a label occurrence begins right here
        have hc : c = 'S' ∧ List.take 3 (y' ++ sqlLabel ++ s)
            = 'Q' :: 'L' :: ':' :: [] := by
          rw [sqlLabel_eq] at h4
          simpa [List.take_succ_cons] using h4
        by_cases h3 : 3 ≤ y'.length
        · -- the occurrence lies inside y
          have hdrop : (y' ++ sqlLabel ++ s).drop 3
              = (y'.drop 3) ++ sqlLabel ++ s := by
            rw [List.append_assoc, List.drop_append_of_le_length h3,
              List.append_assoc]
          have hshape : y' ++ sqlLabel ++ s
              = 'Q' :: 'L' :: ':' :: ((y'.drop 3) ++ sqlLabel ++ s) := by
            conv_lhs => rw [← List.take_append_drop 3 (y' ++ sqlLabel ++ s)]
            rw [hc.2, hdrop]
            rfl
          rw [hc.1, hshape]
          have hrec := ih (y'.drop 3) s
            (by simp only [List.length_drop]; simp at hy; omega)
          simp only [lastTailAux, hrec]
        · -- a straddling occurrence is impossible: SQL: does not overlap itself
          exfalso
          match y' with
          | [] =>
            rw [sqlLabel_eq] at hc
            simp at hc
          | [d] =>
            rw [sqlLabel_eq] at hc
            simp at hc
          | [d, e] =>
            rw [sqlLabel_eq] at hc
            simp at hc
          | d :: e :: f :: y4 =>
            simp at h3
      · rw [lastTailAux_cons_ne h4]
        exact ih y' s (by simp at hy; omega)

/-- The cleaned pre-semicolon query contains a `;` only if the response did. -/
theorem semi_mem_preSemicolon {r : List Char} (h : ';' ∈ preSemicolon r) :
    ';' ∈ r := by
  unfold preSemicolon at h
  have h1 := mem_stripWS h
  rcases mem_collapseGo h1 with h2 | h2
  · exact absurd h2 (by decide)
  · obtain ⟨c, hc, hcm⟩ := List.mem_map.mp h2
    have hc' : c = ';' := by
      unfold nlToSpace at hcm
      split at hcm
      · exact absurd hcm (by decide)
      · exact hcm
    subst hc'
    have h3 := mem_removeFences hc
    have h4 := mem_candidateOf h3
    have h5 := mem_postLabel h4 rfl
    exact mem_stripTokens h5

theorem endsOneSemi_append_semi {q : List Char} (h : endsSemi q = false) :
    endsOneSemi (q ++ [';']) = true := by
  unfold endsOneSemi
  rw [List.reverse_append]
  unfold endsSemi at h
  rcases hq : q.reverse with _ | ⟨d, w⟩
  · simp
  · rw [hq] at h
    simp only [List.reverse_cons, List.reverse_nil, List.nil_append,
      List.cons_append, List.singleton_append]
    simp at h ⊢
    exact fun hd => absurd hd h

theorem findOcc_char_of {u : List Char} {ch : Char} :
    ∀ {j : Nat}, u.get? j = some ch → (∀ k, k < j → u.get? k ≠ some ch) →
      findOcc [ch] u = some j := by
  induction u with
  | nil =>
    intro j hj _
    simp at hj
  | cons c u' ih =>
    intro j hj hmin
    match j with
    | 0 =>
      simp only [List.get?] at hj
      have hc : c = ch := by simpa using hj
      subst hc
      simp [findOcc, leadsWith]
    | j + 1 =>
      have hc : c ≠ ch := by
        intro hc
        exact hmin 0 (Nat.succ_pos j) (by simp [hc])
      have hl : leadsWith [ch] (c :: u') = false := by
        simp [leadsWith]
        exact fun h => absurd h.symm hc
      rw [findOcc, if_neg (by simp [hl])]
      have hrec := ih (by simpa using hj)
        (fun k hk => by
          have := hmin (k + 1) (Nat.succ_lt_succ hk)
          simpa using this)
      rw [hrec]
      rfl

theorem foldl_append_eq (l : List Nat) (f : Nat → List Char) :
    ∀ init : List Char,
      l.foldl (fun acc i => acc ++ f i) init = init ++ (l.map f).flatten := by
  induction l with
  | nil => intro init; simp
  | cons x xs ih =>
    intro init
    simp only [List.foldl_cons, List.map_cons, List.flatten_cons]
    rw [ih (init ++ f x)]
    simp [List.append_assoc]

/-- Specification of right-padding: same number of rows in the same order,
each row the original sequence plus trailing padding, all rows sharing the
longest original length. -/
def paddedRows (orig padded : List (List Nat)) (pv : Nat) : Prop :=
  padded.length = orig.length
  ∧ (∀ i, i < orig.length →
      padded.get? i = (orig.get? i).map
        (fun s => s ++ List.replicate (maxLen orig - s.length) pv))
  ∧ (∀ row ∈ padded, row.length = maxLen orig)

theorem le_maxLen {s : List Nat} {xs : List (List Nat)} (h : s ∈ xs) :
    s.length ≤ maxLen xs := by
  induction xs with
  | nil => simp at h
  | cons a t ih =>
    rcases List.mem_cons.mp h with h | h
    · subst h
      exact Nat.le_max_left _ _
    · exact le_trans (ih h) (Nat.le_max_right _ _)

theorem pad_sequence_spec (seqs : List (List Nat)) (pv : Nat) :
    paddedRows seqs (pad_sequence seqs pv) pv := by
  refine ⟨by simp [pad_sequence], ?_, ?_⟩
  · intro i hi
    simp [pad_sequence, List.get?_eq_getElem?, List.getElem?_map]
  · intro row hrow
    obtain ⟨s, hs, hrow⟩ := List.mem_map.mp hrow
    subst hrow
    simp only [List.length_append, List.length_replicate]
    have := le_maxLen hs
    omega

/-! ## Claim theorems -/

/-- C2 (counterexample): the source strips by length, not by prefix. With
prompt `"ab"` and decoded output `"xyz"` (which does not start with the
prompt), the output is not passed through unchanged, contradicting the claim
as stated. -/
theorem C2_cex :
    leadsWith (s2l "ab") (s2l "xyz") = false
    ∧ stripResponse (s2l "ab") (s2l "xyz") ≠ s2l "xyz" := by
  refine ⟨by decide, by decide⟩

/-- C2 (amended): the generation loop drops the first `len(prompt)`
characters (then strips surrounding whitespace) whenever the decoded output is
strictly longer than the prompt, regardless of its content; otherwise the
output is unchanged. In particular, when the output is the prompt followed by
a non-empty remainder, exactly the prompt prefix is removed. -/
theorem C2_length_based_strip (p r : List Char) :
    (p.length < r.length → stripResponse p r = stripWS (r.drop p.length))
    ∧ (r.length ≤ p.length → stripResponse p r = r)
    ∧ (∀ rest, r = p ++ rest → rest ≠ [] → stripResponse p r = stripWS rest) := by
  refine ⟨?_, ?_, ?_⟩
  · intro h
    unfold stripResponse
    rw [if_pos h]
  · intro h
    unfold stripResponse
    rw [if_neg (by omega)]
  · intro rest hr hne
    subst hr
    unfold stripResponse
    rw [if_pos (by simp [List.length_append]; exact List.length_pos.mpr hne)]
    rw [List.drop_left]

theorem C2_witness : stripResponse (s2l "ab") (s2l "ab cd") = s2l "cd" := by
  have h := (C2_length_based_strip (s2l "ab") (s2l "ab cd")).2.2 (s2l " cd")
    (by decide) (by decide)
  rw [h]
  decide

/-- C3 (counterexample): with a training SQL already ending in two
semicolons, the appended example block keeps both, so the block SQL does not
end in exactly one semicolon as the claim states. -/
theorem C3_cex :
    create_prompt (s2l "s") 1 [s2l "q"] [s2l "a;;"] none 0
      = instruct0 ++ s2l "q\na;;\n\n" ++ s2l "s"
    ∧ endsOneSemi (s2l "a;;") = false := by
  refine ⟨by decide, by decide⟩

set_option linter.unusedVariables false in
/-- C3 (amended): for `k > 0` and non-empty training lists (with enough
target SQL entries for the selected examples), create_prompt appends exactly
`min(k, len(train_x))` blocks after the instruction text, each
`question\n{sql}\n\n` where `{sql}` is the stripped example SQL with a
semicolon appended exactly when one is missing — so every block SQL ends in
at least one semicolon and no semicolon is added to one already present —
followed by the target sentence. -/
theorem C3_example_blocks (sentence : List Char) (k : Nat)
    (tx ty : List (List Char)) (schema : Option (List Char)) (pt : Int)
    (hk : 0 < k) (hx : tx ≠ []) (hy : ty ≠ [])
    (hlen : min k tx.length ≤ ty.length) :
    create_prompt sentence k tx ty schema pt
      = instructOf pt schema
        ++ ((List.range (min k tx.length)).map
            (fun i => exampleBlock (tx.getD i []) (ty.getD i []))).flatten
        ++ sentence
    ∧ (List.range (min k tx.length)).length = min k tx.length
    ∧ (∀ x y, exampleBlock x y
        = x ++ '\n' :: (addSemi (stripWS y) ++ ['\n', '\n']))
    ∧ (∀ y, endsSemi (addSemi y) = true)
    ∧ (∀ y, endsSemi y = true → addSemi y = y)
    ∧ (∀ y, endsSemi y = false → addSemi y = y ++ [';']) := by
  refine ⟨?_, by simp, fun x y => rfl, ?_, ?_, ?_⟩
  · unfold create_prompt
    rw [if_pos ⟨hk, hx, hy⟩, foldl_append_eq]
  · intro y
    unfold addSemi
    by_cases h : endsSemi y = true
    · rw [if_pos h]; exact h
    · rw [if_neg h]
      unfold endsSemi
      rw [List.reverse_append]
      simp
  · intro y h
    unfold addSemi
    rw [if_pos h]
  · intro y h
    unfold addSemi
    rw [if_neg (by simp [h])]

theorem C3_witness :
    create_prompt (s2l "s") 2 [s2l "q1", s2l "q2"] [s2l "a", s2l "b;"] none 0
      = instruct0 ++ s2l "q1\na;\n\nq2\nb;\n\n" ++ s2l "s" := by
  have h := (C3_example_blocks (s2l "s") 2 [s2l "q1", s2l "q2"]
    [s2l "a", s2l "b;"] none 0 (by decide) (by decide) (by decide)
    (by decide)).1
  rw [h]
  decide

/-- C4: every non-test processed example has decoder input `BOS :: target`
and decoder target `target ++ [EOS]`, hence the decoder target equals the
decoder input with its first element removed and the EOS id appended. -/
theorem C4_teacher_forcing_shift (tk : TokModel) (din dout : List (List Char))
    (ex : TrainEx) (hex : ex ∈ process_data_nontest tk din dout) :
    (∃ sql : List Char, sql ∈ dout
        ∧ ex.decoder_input_ids = tk.bosId :: tk.encodeDec sql
        ∧ ex.decoder_target_ids = tk.encodeDec sql ++ [tk.eosId])
    ∧ ex.decoder_target_ids = ex.decoder_input_ids.drop 1 ++ [tk.eosId] := by
  unfold process_data_nontest at hex
  obtain ⟨p, hp, hpe⟩ := List.mem_map.mp hex
  have hmem : p.2 ∈ dout := by
    have := List.of_mem_zip (a := p.1) (b := p.2) (by simpa using hp)
    exact this.2
  subst hpe
  exact ⟨⟨p.2, hmem, rfl, rfl⟩, by simp⟩

/-- A concrete tokenizer model for evaluating the dataset claims. -/
def tkW : TokModel :=
  { encodeEnc := fun _ => [3]
    encMask := fun _ => [4]
    encodeDec := fun _ => [9]
    bosId := 5
    eosId := 1 }

/-- The single example produced by `process_data_nontest tkW [ "a" ] [ "b" ]`. -/
def exW : TrainEx :=
  { encoder_input_ids := [3]
    encoder_attention_mask := [4]
    decoder_input_ids := [5, 9]
    decoder_target_ids := [9, 1]
    decoder_start_token := 5 }

theorem C4_witness :
    exW.decoder_target_ids = exW.decoder_input_ids.drop 1 ++ [tkW.eosId] := by
  have hex : exW ∈ process_data_nontest tkW [s2l "a"] [s2l "b"] := by
    rw [show process_data_nontest tkW [s2l "a"] [s2l "b"] = [exW] from rfl]
    exact List.mem_singleton.mpr rfl
  exact (C4_teacher_forcing_shift tkW [s2l "a"] [s2l "b"] exW hex).2

set_option linter.unusedVariables false in
/-- C8: collation pads each of the four fields independently on the right
with 0 to that field's maximum length, preserving example order, and returns
the per-example start tokens in order. -/
theorem C8_collate_padding (batch : List TrainEx) (hb : batch ≠ []) :
    paddedRows (batch.map (·.encoder_input_ids))
      (normal_collate_fn batch).1 PAD_IDX
    ∧ paddedRows (batch.map (·.encoder_attention_mask))
        (normal_collate_fn batch).2.1 0
    ∧ paddedRows (batch.map (·.decoder_input_ids))
        (normal_collate_fn batch).2.2.1 PAD_IDX
    ∧ paddedRows (batch.map (·.decoder_target_ids))
        (normal_collate_fn batch).2.2.2.1 PAD_IDX
    ∧ (normal_collate_fn batch).2.2.2.2 = batch.map (·.decoder_start_token)
    ∧ PAD_IDX = 0 :=
  ⟨pad_sequence_spec _ _, pad_sequence_spec _ _, pad_sequence_spec _ _,
   pad_sequence_spec _ _, rfl, rfl⟩

theorem C8_witness :
    (normal_collate_fn [exW, exW]).2.2.2.2 = [5, 5]
    ∧ (normal_collate_fn [exW, exW]).1.length = 2 := by
  have h := C8_collate_padding [exW, exW] (by simp)
  constructor
  · rw [h.2.2.2.2.1]
    rfl
  · rw [h.1.1]
    rfl

/-- C9: the error rate is the number of non-empty error messages divided by
the total count, and the empty list yields 0 rather than a division error. -/
theorem C9_error_rate (msgs : List (List Char)) :
    eval_outputs_error_rate msgs
      = some (if msgs.length = 0 then 0
              else ((msgs.filter (fun m => !m.isEmpty)).length : ℚ)
                / (msgs.length : ℚ)) := by
  unfold eval_outputs_error_rate pyDiv
  rcases msgs with _ | ⟨m, ms⟩
  · simp
  · have hcast : ¬(((m :: ms).length : ℚ) = 0) := by
      simp only [List.length_cons]
      exact_mod_cast Nat.succ_ne_zero ms.length
    rw [if_pos (by simp)]
    rw [if_neg hcast]
    rw [if_neg (by simp)]

/-- C10: every integer ptype other than 0 and 1 selects the third instruction
text; the schema excerpt (at most 300 characters) is appended exactly when a
non-empty schema is supplied. -/
theorem C10_variant2_schema (pt : Int) (h0 : pt ≠ 0) (h1 : pt ≠ 1)
    (sentence : List Char) (k : Nat) (tx ty : List (List Char))
    (schema : Option (List Char)) :
    create_prompt sentence k tx ty schema pt
      = instruct2base ++ schemaPart schema ++ exampleSection k tx ty ++ sentence
    ∧ schemaPart none = []
    ∧ schemaPart (some []) = []
    ∧ (∀ s : List Char, s ≠ [] →
        schemaPart (some s) = s2l "Schema: " ++ s.take 300 ++ s2l "\n\n"
        ∧ (s.take 300).length ≤ 300) := by
  refine ⟨?_, rfl, by simp [schemaPart], ?_⟩
  · unfold create_prompt exampleSection instructOf
    rw [if_neg h0, if_neg h1]
    by_cases hg : 0 < k ∧ tx ≠ [] ∧ ty ≠ []
    · rw [if_pos hg, if_pos hg, foldl_append_eq]
    · rw [if_neg hg, if_neg hg]
      simp [List.append_assoc]
  · intro s hs
    refine ⟨by simp [schemaPart, hs], ?_⟩
    simp

set_option maxRecDepth 20000 in
theorem C10_witness :
    create_prompt (s2l "q") 0 [] [] (some (s2l "T(a,b)")) 2
      = instruct2base ++ s2l "Schema: T(a,b)\n\n" ++ s2l "q"
    ∧ ((s2l "T(a,b)").take 300).length ≤ 300 := by
  have h := C10_variant2_schema 2 (by decide) (by decide) (s2l "q") 0 [] []
    (some (s2l "T(a,b)"))
  refine ⟨?_, (h.2.2.2 (s2l "T(a,b)") (by decide)).2⟩
  rw [h.1]
  decide

/-- C5: only the text after the last case-insensitive `SQL:` label matters.
`lab` and `lab'` range over every case variant of the label (any four
characters that uppercase to `SQL:`, e.g. `sql:`, `Sql:`, `SQL:`). Two
responses sharing the same text `t` after such a label — with no
special-token markers anywhere, so the initial replacements are no-ops —
extract to the same query whatever precedes the label and whatever the
label's case: everything up to and including the final label is discarded
before the SELECT search. -/
theorem C5_label_cut (a lab b lab' t : List Char)
    (hlab : List.map upChar lab = sqlLabel)
    (hlab' : List.map upChar lab' = sqlLabel)
    (ha : stripTokens (a ++ lab ++ t) = a ++ lab ++ t)
    (hb : stripTokens (b ++ lab' ++ t) = b ++ lab' ++ t) :
    extract_sql_query (a ++ lab ++ t)
      = extract_sql_query (b ++ lab' ++ t) := by
  have key : ∀ y lb : List Char, List.map upChar lb = sqlLabel →
      stripTokens (y ++ lb ++ t) = y ++ lb ++ t →
      postLabel (stripTokens (y ++ lb ++ t))
        = afterLastLabel (List.map upChar t) := by
    intro y lb hlb hy
    rw [hy]
    unfold postLabel
    have hmap : List.map upChar (y ++ lb ++ t)
        = List.map upChar y ++ sqlLabel ++ List.map upChar t := by
      rw [List.map_append, List.map_append, hlb]
    rw [hmap]
    have hocc : hasOcc sqlLabel
        (List.map upChar y ++ sqlLabel ++ List.map upChar t) = true := by
      unfold hasOcc
      apply findOcc_isSome_of_leads (k := (List.map upChar y).length)
      rw [List.append_assoc, List.drop_left]
      exact leadsWith_append_self _ _
    rw [if_pos hocc]
    unfold afterLastLabel
    rw [lastTailAux_append (List.map upChar y).length _ _ (le_refl _)]
    rfl
  unfold extract_sql_query preSemicolon
  rw [key a lab hlab ha, key b lab' hlab' hb]

theorem C5_witness :
    extract_sql_query (s2l "x" ++ s2l "sql:" ++ s2l " select 1 ")
      = extract_sql_query (s2l "yy" ++ s2l "SQL:" ++ s2l " select 1 ") := by
  exact C5_label_cut (s2l "x") (s2l "sql:") (s2l "yy") (s2l "SQL:")
    (s2l " select 1 ") (by decide) (by decide) (by decide) (by decide)

/-- C6: when the cleaned result is non-empty and lacks a trailing semicolon,
extraction appends exactly one semicolon; and any response with no semicolon
at all yields (when the output is non-empty) an output ending in exactly one
semicolon. -/
theorem C6_semicolon_append (r : List Char) :
    (preSemicolon r ≠ [] → endsSemi (preSemicolon r) = false →
      extract_sql_query r = preSemicolon r ++ [';']
      ∧ endsOneSemi (extract_sql_query r) = true)
    ∧ (';' ∉ r → extract_sql_query r ≠ [] →
        endsOneSemi (extract_sql_query r) = true) := by
  constructor
  · intro h1 h2
    unfold extract_sql_query
    rw [if_pos ⟨h1, h2⟩]
    exact ⟨rfl, endsOneSemi_append_semi h2⟩
  · intro hnot hne
    have h2 : endsSemi (preSemicolon r) = false := by
      unfold endsSemi
      rcases hqrev : (preSemicolon r).reverse with _ | ⟨d, w⟩
      · rfl
      · have hd : d ∈ preSemicolon r := by
          rw [← List.mem_reverse, hqrev]
          simp
        have hds : d ≠ ';' := fun h => hnot (semi_mem_preSemicolon (h ▸ hd))
        simp [hds]
    have h1 : preSemicolon r ≠ [] := by
      intro h0
      apply hne
      unfold extract_sql_query
      rw [if_neg (by simp [h0])]
      exact h0
    unfold extract_sql_query
    rw [if_pos ⟨h1, h2⟩]
    exact endsOneSemi_append_semi h2

theorem C6_witness :
    extract_sql_query (s2l "abc") = s2l "abc;"
    ∧ endsOneSemi (extract_sql_query (s2l "abc")) = true := by
  have h := C6_semicolon_append (s2l "abc")
  have h1 := h.1 (by decide) (by decide)
  have h2 := h.2 (by decide) (by decide)
  exact ⟨h1.1.trans (by decide), h2⟩

/-- C7: when no case-insensitive `SELECT`-plus-whitespace-plus-semicolon
pattern begins anywhere in the label-cut, token-stripped response, extraction
returns the whole cleaned response (fences removed, whitespace collapsed,
ends trimmed), semicolon-terminated when non-empty; the function is total, so
no failure marker or exception arises. -/
theorem C7_no_select_fallback (r : List Char)
    (hns : ∀ p, p < (postLabel (stripTokens r)).length →
      selStartsAt (postLabel (stripTokens r)) p = false) :
    extract_sql_query r
      = (if stripWS (collapseWS (List.map nlToSpace
            (removeFences (postLabel (stripTokens r))))) ≠ []
            ∧ endsSemi (stripWS (collapseWS (List.map nlToSpace
                (removeFences (postLabel (stripTokens r)))))) = false
         then stripWS (collapseWS (List.map nlToSpace
            (removeFences (postLabel (stripTokens r))))) ++ [';']
         else stripWS (collapseWS (List.map nlToSpace
            (removeFences (postLabel (stripTokens r))))))
    ∧ (extract_sql_query r ≠ [] → endsSemi (extract_sql_query r) = true) := by
  have hnone : findSelect (postLabel (stripTokens r)) = none := by
    apply findSelect_eq_none
    intro q
    by_cases hq : q < (postLabel (stripTokens r)).length
    · exact tryMatch_eq_none (hns q hq)
    · rw [List.drop_of_length_le (by omega)]
      exact tryMatch_nil
  constructor
  · unfold extract_sql_query preSemicolon candidateOf
    rw [hnone]
  · exact extract_sql_query_endsSemi r

theorem C7_witness :
    extract_sql_query (s2l "hello world") = s2l "hello world;" := by
  have h := (C7_no_select_fallback (s2l "hello world") (by decide)).1
  rw [h]
  decide

/-- C1 (counterexample): `"sql: select a from b;"` contains the well-formed
substring `select a from b;` (its first match starts at position 5), but
because a case-insensitive `SQL:` label is present the retained text is
uppercased before the SELECT search, so extraction returns
`SELECT A FROM B;` — the character case of the substring is not preserved,
contradicting the claim as stated. -/
theorem C1_cex :
    selStartsAt (s2l "sql: select a from b;") 5 = true
    ∧ extract_sql_query (s2l "sql: select a from b;")
        ≠ s2l "select a from b;"
    ∧ extract_sql_query (s2l "sql: select a from b;")
        = s2l "SELECT A FROM B;" := by
  refine ⟨by decide, by decide, by decide⟩

/-- C1 (amended): for a response free of special-token markers and of any
case-insensitive `SQL:` label, whose first well-formed match starts at
position `i` (`i` minimal) and ends at the first semicolon at offset
`7 + j` from `i` (`j` minimal), and whose matched region contains no code
fence, extraction returns exactly that substring with newlines replaced by
spaces, whitespace runs collapsed, and ends trimmed — original character
case preserved. -/
theorem C1_first_select (r : List Char) (i j : Nat)
    (htok : stripTokens r = r)
    (hlabel : hasOcc sqlLabel (List.map upChar r) = false)
    (hsel : selStartsAt r i = true)
    (hmin : ∀ p, p < i → selStartsAt r p = false)
    (hsemi : (List.drop (i + 7) r).get? j = some ';')
    (hjmin : ∀ k, k < j → (List.drop (i + 7) r).get? k ≠ some ';')
    (hfence : removeFences (List.take (8 + j) (List.drop i r))
        = List.take (8 + j) (List.drop i r)) :
    extract_sql_query r
      = stripWS (collapseWS (List.map nlToSpace
          (List.take (8 + j) (List.drop i r)))) := by
  have hpost : postLabel (stripTokens r) = r := by
    rw [htok]
    unfold postLabel
    rw [if_neg (by simp [hlabel])]
  have hF : findOcc [';'] (List.drop (i + 7) r) = some j :=
    findOcc_char_of hsemi hjmin
  have htry : tryMatch (r.drop i) = some (List.take (8 + j) (r.drop i)) :=
    tryMatch_eq_some hsel hF
  have hsome : findSelect r = some (List.take (8 + j) (r.drop i)) :=
    findSelect_eq_some (fun q hq => tryMatch_eq_none (hmin q hq)) htry
  have hsemi' : r[i + 7 + j]? = some ';' := by
    rw [List.get?_eq_getElem?, List.getElem?_drop] at hsemi
    exact hsemi
  have hlen : i + 7 + j < r.length := by
    obtain ⟨hlt, _⟩ := List.getElem?_eq_some_iff.mp hsemi'
    exact hlt
  have hlast : (List.take (8 + j) (r.drop i)).getLast? = some ';' := by
    rw [List.getLast?_eq_getElem?]
    have hlen8 : (List.take (8 + j) (r.drop i)).length = 8 + j := by
      simp [List.length_take, List.length_drop]
      omega
    rw [hlen8, show 8 + j - 1 = 7 + j from by omega]
    rw [List.getElem?_take_of_lt (by omega), List.getElem?_drop]
    rw [show i + (7 + j) = i + 7 + j from by omega]
    exact hsemi'
  have hq5 : (stripWS (collapseWS (List.map nlToSpace
      (List.take (8 + j) (r.drop i))))).getLast? = some ';' :=
    getLast?_clean hlast
  have hends : endsSemi (stripWS (collapseWS (List.map nlToSpace
      (List.take (8 + j) (r.drop i))))) = true := endsSemi_of_getLast? hq5
  unfold extract_sql_query preSemicolon candidateOf
  rw [hpost, hsome, hfence]
  rw [if_neg (by
    intro hcontra
    rw [hends] at hcontra
    exact absurd hcontra.2 (by simp))]

theorem C1_witness :
    extract_sql_query (s2l "x select a from b; y") = s2l "select a from b;" := by
  have h := C1_first_select (s2l "x select a from b; y") 2 8
    (by decide) (by decide) (by decide) (by decide) (by decide) (by decide)
    (by decide)
  rw [h]
  decide

end HW3
